import Mathlib

/-!
Verification of the spaGO reverse-mode automatic-differentiation excerpts.

The file shallowly embeds the visible source of the repository (the operator
composition helpers of `pkg/ml/nn/transforms.go`, the scalenorm processor,
and the NLI-classification worker) together with the parts of the `ag`
graph engine that the source excerpt only references, which are modelled
from the specification.  Theorems check the specified properties of the
embedding.
-/

/- ## Scalar-product operator (pkg/ml/ag/fn/prodscalar) -/

/-- Modelled from the spec: the Forward rule of the scalar-product operator
`fn.ProdScalar` (its implementation file is missing from the excerpt; only
its unit test `prodscalar_test.go` is present).  `z = x · s` is the
elementwise product of the vector `x` by the 1-element scalar `s`. -/
def prodScalarForward (x : List ℚ) (s : ℚ) : List ℚ :=
  x.map fun v => v * s

/-- Modelled from the spec: the Backward rule of `fn.ProdScalar` for the
vector operand, `dL/dx = dL/dz · s`. -/
def prodScalarBackwardX (gz : List ℚ) (s : ℚ) : List ℚ :=
  gz.map fun v => v * s

/-- Modelled from the spec: the Backward rule of `fn.ProdScalar` for the
scalar operand, `dL/ds = Σ (dL/dz ⊙ x)`, the sum-reduction over the
elementwise product (broadcast fan-in). -/
def prodScalarBackwardS (gz x : List ℚ) : List ℚ :=
  [(List.zipWith (fun a b => a * b) gz x).sum]

/-- C1: for the scalar-product operator, Forward returns the elementwise
product of `x` by the scalar `s` and Backward returns `dL/dx = dL/dz · s`
and `dL/ds = Σ(dL/dz ⊙ x)`; on the test scenario of
`TestScalarProd_Forward` (`x1 = [0.1, 0.2, 0.3, 0.0]`, `x2 = 2.0`, seed
`[-1.0, 0.5, 0.8, 0.0]`) this yields output `[0.2, 0.4, 0.6, 0.0]`,
`x1.gradient = [-2.0, 1.0, 1.6, 0.0]` and `x2.gradient = [0.24]`. -/
theorem prodScalar_forward_backward_scenario :
    prodScalarForward [1/10, 2/10, 3/10, 0] 2 = [2/10, 4/10, 6/10, 0] ∧
    prodScalarBackwardX [-1, 1/2, 4/5, 0] 2 = [-2, 1, 8/5, 0] ∧
    prodScalarBackwardS [-1, 1/2, 4/5, 0] [1/10, 2/10, 3/10, 0] = [6/25] := by
  refine ⟨?_, ?_, ?_⟩ <;>
    norm_num [prodScalarForward, prodScalarBackwardX, prodScalarBackwardS]

/- ## Graph-composition helpers (pkg/ml/nn/transforms.go)

The composition calls `g.Add` / `g.Mul` build operator nodes in the owning
Graph.  We embed the built nodes as expression trees and thread the
node list of the Graph (its creation log) explicitly; a Go `panic` becomes an
`Except.error` that leaves the log as it was at the moment of the panic.
Go node references may be `nil`, so an operand is an `Option NNExpr`. -/

inductive NNExpr where
  | nil
  | leaf (id : ℕ)
  | add (a b : NNExpr)
  | mul (a b : NNExpr)
deriving DecidableEq

/-- A Go `ag.Node` reference: either `nil` or a node. -/
abbrev NNNode := NNExpr

/-- The call `g.Add(a, b)` creates an addition node in the graph log. -/
def gAdd (a b : NNNode) (s : List NNExpr) : NNNode × List NNExpr :=
  (.add a b, s ++ [.add a b])

/-- The call `g.Mul(a, b)` creates a multiplication node in the graph log. -/
def gMul (a b : NNNode) (s : List NNExpr) : NNNode × List NNExpr :=
  (.mul a b, s ++ [.mul a b])

/-- Function `Linear(g, w, x) = g.Mul(w, x)` (transforms.go line 14). -/
def Linear (w x : NNNode) (s : List NNExpr) : NNNode × List NNExpr :=
  gMul w x s

/-- Go slice indexing `xs[i]`: out of range panics. -/
def goIndex (xs : List NNNode) (i : ℕ) : Except String NNNode :=
  if h : i < xs.length then .ok (xs.get ⟨i, h⟩)
  else .error "runtime error: index out of range"

/-- The loop of `Affine` (transforms.go lines 28-34):
`for i := 3; i < len(xs)-1; i += 2 { if xs[i+1] != nil { y = g.Add(y, Linear(g, xs[i], xs[i+1])) } }`. -/
def affineLoop (xs : List NNNode) (i : ℕ) (y : NNNode) (s : List NNExpr) :
    NNNode × List NNExpr :=
  if h : i < xs.length - 1 then
    let w := xs.getD i .nil
    let x := xs.getD (i + 1) .nil
    if x ≠ NNExpr.nil then
      let wx := Linear w x s
      let y1 := gAdd y wx.1 wx.2
      affineLoop xs (i + 2) y1.1 y1.2
    else
      affineLoop xs (i + 2) y s
  else (y, s)
termination_by xs.length - i
decreasing_by all_goals omega

/-- Function `Affine` (transforms.go lines 23-36): panics when the argument count is
even, otherwise builds `b + W1x1` and then folds the remaining pairs in,
skipping pairs whose second element is nil. -/
def Affine (xs : List NNNode) (s : List NNExpr) :
    Except String NNNode × List NNExpr :=
  if xs.length % 2 == 0 then
    (.error "nn: the number of arguments of the affine transformation should be odd", s)
  else
    match goIndex xs 0, goIndex xs 1, goIndex xs 2 with
    | .ok b, .ok w1, .ok x1 =>
        let wx := Linear w1 x1 s
        let y := gAdd b wx.1 wx.2
        let r := affineLoop xs 3 y.1 y.2
        (.ok r.1, r.2)
    | _, _, _ => (.error "runtime error: index out of range", s)

/- Specification-side closed form for `Affine` (claim C9). -/

/-- The later argument pairs `(xs[i], xs[i+1])`, `i = 3, 5, …`, of an
affine argument list `b :: w1 :: x1 :: rest`, read off `rest` two at a
time. -/
def affinePairs : List NNNode → List (NNNode × NNNode)
  | w :: x :: rest => (w, x) :: affinePairs rest
  | _ => []

/-- Folding the later pairs into the accumulated sum: a pair is added only
when its second component is non-nil. -/
def affineFold (y : NNNode) (ps : List (NNNode × NNNode)) : NNNode :=
  ps.foldl (fun y p => if p.2 ≠ NNExpr.nil then NNExpr.add y (.mul p.1 p.2) else y) y

/-- The pairs the loop of `Affine` visits, starting at index `i`. -/
def pairsFrom (xs : List NNNode) (i : ℕ) : List (NNNode × NNNode) :=
  if h : i < xs.length - 1 then
    (xs.getD i .nil, xs.getD (i + 1) .nil) :: pairsFrom xs (i + 2)
  else []
termination_by xs.length - i
decreasing_by omega

/-- One step of the spec-side fold. -/
theorem affineFold_cons (y : NNNode) (p : NNNode × NNNode) (ps : List (NNNode × NNNode)) :
    affineFold y (p :: ps)
      = affineFold (if p.2 ≠ NNExpr.nil then NNExpr.add y (.mul p.1 p.2) else y) ps := rfl

theorem affineLoop_fst (xs : List NNNode) :
    ∀ (n i : ℕ) (y : NNNode) (s : List NNExpr), xs.length - i ≤ n →
      (affineLoop xs i y s).1 = affineFold y (pairsFrom xs i) := by
  intro n
  induction n with
  | zero =>
      intro i y s hn
      have h : ¬ i < xs.length - 1 := by omega
      conv_lhs => rw [affineLoop]
      conv_rhs => rw [pairsFrom]
      rw [dif_neg h, dif_neg h]
      rfl
  | succ n ih =>
      intro i y s hn
      by_cases h : i < xs.length - 1
      · conv_lhs => rw [affineLoop]
        conv_rhs => rw [pairsFrom]
        rw [dif_pos h, dif_pos h, affineFold_cons]
        by_cases hx : xs.getD (i + 1) NNExpr.nil ≠ NNExpr.nil
        · rw [if_pos hx, if_pos hx]
          exact ih (i + 2) _ _ (by omega)
        · rw [if_neg hx, if_neg hx]
          exact ih (i + 2) _ _ (by omega)
      · conv_lhs => rw [affineLoop]
        conv_rhs => rw [pairsFrom]
        rw [dif_neg h, dif_neg h]
        rfl

theorem pairsFrom_cons (a : NNNode) (xs : List NNNode) :
    ∀ (n i : ℕ), xs.length - i ≤ n → pairsFrom (a :: xs) (i + 1) = pairsFrom xs i := by
  intro n
  induction n with
  | zero =>
      intro i hn
      have h1 : ¬ i + 1 < (a :: xs).length - 1 := by
        simp only [List.length_cons]; omega
      have h2 : ¬ i < xs.length - 1 := by omega
      conv_lhs => rw [pairsFrom]
      conv_rhs => rw [pairsFrom]
      rw [dif_neg h1, dif_neg h2]
  | succ n ih =>
      intro i hn
      by_cases h : i < xs.length - 1
      · have h1 : i + 1 < (a :: xs).length - 1 := by
          simp only [List.length_cons]; omega
        conv_lhs => rw [pairsFrom]
        conv_rhs => rw [pairsFrom]
        rw [dif_pos h1, dif_pos h]
        rw [List.getD_cons_succ, List.getD_cons_succ]
        rw [show i + 1 + 2 = (i + 2) + 1 by omega]
        rw [ih (i + 2) (by omega)]
      · have h1 : ¬ i + 1 < (a :: xs).length - 1 := by
          simp only [List.length_cons]; omega
        conv_lhs => rw [pairsFrom]
        conv_rhs => rw [pairsFrom]
        rw [dif_neg h1, dif_neg h]

theorem pairsFrom_zero_eq :
    ∀ (n : ℕ) (rest : List NNNode), rest.length ≤ n →
      pairsFrom rest 0 = affinePairs rest := by
  intro n
  induction n with
  | zero =>
      intro rest hn
      cases rest with
      | nil => rw [pairsFrom]; simp [affinePairs]
      | cons a t => simp at hn
  | succ n ih =>
      intro rest hn
      match rest with
      | [] => rw [pairsFrom]; simp [affinePairs]
      | [w] =>
          have h : ¬ (0 : ℕ) < ([w] : List NNNode).length - 1 := by simp
          rw [pairsFrom, dif_neg h]
          rfl
      | w :: x :: rest' =>
          have h : (0 : ℕ) < (w :: x :: rest').length - 1 := by
            simp [List.length_cons]
          rw [pairsFrom, dif_pos h]
          rw [show (0 : ℕ) + 2 = (0 + 1) + 1 by omega]
          rw [pairsFrom_cons w (x :: rest') (x :: rest').length (0 + 1) (by omega)]
          rw [pairsFrom_cons x rest' rest'.length 0 (by omega)]
          rw [ih rest' (by simp only [List.length_cons] at hn; omega)]
          simp [affinePairs, List.getD_cons_zero, List.getD_cons_succ]

/-- C9: for every odd-length argument list `xs = b :: w1 :: x1 :: rest`
with at least 3 elements, `Affine` returns
`b + w1·x1 + Σ` over the later pairs `(xs[i], xs[i+1])`, `i` odd, `i ≥ 3`,
whose second element is non-nil; later pairs with a nil second element are
skipped, while the first pair is always multiplied and added regardless of
nil. -/
theorem affine_closed_form (b w1 x1 : NNNode) (rest : List NNNode) (s : List NNExpr)
    (h : rest.length % 2 = 0) :
    (Affine (b :: w1 :: x1 :: rest) s).1
      = .ok (affineFold (.add b (.mul w1 x1)) (affinePairs rest)) := by
  have hodd : ¬ ((b :: w1 :: x1 :: rest).length % 2 = 0) := by
    simp only [List.length_cons]
    omega
  rw [Affine]
  have h0 : (0 : ℕ) < (b :: w1 :: x1 :: rest).length := by simp
  have h1 : (1 : ℕ) < (b :: w1 :: x1 :: rest).length := by
    simp [List.length_cons]
  have h2 : (2 : ℕ) < (b :: w1 :: x1 :: rest).length := by
    simp [List.length_cons]
  simp only [goIndex, dif_pos h0, dif_pos h1, dif_pos h2, beq_iff_eq, if_neg hodd]
  simp only [List.get]
  rw [affineLoop_fst _ (b :: w1 :: x1 :: rest).length 3 _ _ (by omega)]
  rw [show (3 : ℕ) = 2 + 1 by omega,
      pairsFrom_cons b (w1 :: x1 :: rest) (w1 :: x1 :: rest).length 2 (by omega)]
  rw [show (2 : ℕ) = 1 + 1 by omega,
      pairsFrom_cons w1 (x1 :: rest) (x1 :: rest).length 1 (by omega)]
  rw [show (1 : ℕ) = 0 + 1 by omega,
      pairsFrom_cons x1 rest rest.length 0 (by omega)]
  rw [pairsFrom_zero_eq rest.length rest le_rfl]
  rfl

/-- Witness for C9: a 7-argument affine call in which the first pair has a
nil `x` (still multiplied in) while a later pair with a nil `x` is
skipped. -/
theorem affine_closed_form_witness :
    (Affine [NNExpr.leaf 0, NNExpr.leaf 1, NNExpr.nil, NNExpr.leaf 2, NNExpr.nil,
        NNExpr.leaf 3, NNExpr.leaf 4] []).1
      = .ok (affineFold (.add (.leaf 0) (.mul (.leaf 1) .nil))
          (affinePairs [NNExpr.leaf 2, NNExpr.nil, NNExpr.leaf 3, NNExpr.leaf 4])) :=
  affine_closed_form (NNExpr.leaf 0) (NNExpr.leaf 1) NNExpr.nil
    [NNExpr.leaf 2, NNExpr.nil, NNExpr.leaf 3, NNExpr.leaf 4] [] (by decide)

/- ## Conv2D (transforms.go lines 49-70)

Only the operand shapes matter for the composition-time checks of Conv2D; node
creation is again recorded in an explicit log.  The Go `%` on ints is the
truncated remainder (`Int.tmod`) and panics on a zero divisor, so a zero
stride aborts at the remainder expression itself. -/

structure ConvShape where
  rows : ℤ
  cols : ℤ
deriving DecidableEq

inductive ConvNode where
  | view (i j r c : ℤ)
  | dot (v : ConvNode)
  | concat (l : List ConvNode)
  | reshape (e : ConvNode) (r c : ℤ)

/-- Function `Conv2D` (transforms.go): validates both strides against the operand
shapes before any node is created, then builds one view and one
dot-product node per output position, a concat node and a reshape node. -/
def Conv2D (w x : ConvShape) (xStride yStride : ℤ) (s : List ConvNode) :
    Except String ConvNode × List ConvNode :=
  if xStride = 0 then (.error "runtime error: integer divide by zero", s)
  else if Int.tmod (x.rows - w.rows) xStride ≠ 0 then
    (.error "Incompatible stride value for rows", s)
  else if yStride = 0 then (.error "runtime error: integer divide by zero", s)
  else if Int.tmod (x.cols - w.cols) yStride ≠ 0 then
    (.error "Incompatible stride value for columns", s)
  else
    let dimx := Int.tdiv (x.rows - w.rows) xStride + 1
    let dimy := Int.tdiv (x.cols - w.cols) yStride + 1
    let res := (List.range dimx.toNat).foldl (fun acc i =>
      (List.range dimy.toNat).foldl (fun acc2 j =>
        let v := ConvNode.view ((i : ℤ) * xStride) ((j : ℤ) * yStride) w.rows w.cols
        let d := ConvNode.dot v
        (acc2.1 ++ [d], acc2.2 ++ [v, d])) acc)
      (([] : List ConvNode), s)
    let c := ConvNode.concat res.1
    let r := ConvNode.reshape c dimx dimy
    (.ok r, res.2 ++ [c, r])

/-- C3: configuration/shape errors are fatal and detected at
graph-composition time, aborting before any graph node of the malformed
operation is built: an even-length argument list makes `Affine` abort
before performing any computation (the graph log `s` is untouched), and a
stride that does not divide the corresponding shape difference makes
`Conv2D` abort before creating any view or dot-product node (the graph
log `cs` is untouched). -/
theorem composition_shape_errors_abort
    (xs : List NNNode) (s : List NNExpr)
    (w x : ConvShape) (xStride yStride : ℤ) (cs : List ConvNode)
    (hpar : xs.length % 2 = 0)
    (hstride : Int.tmod (x.rows - w.rows) xStride ≠ 0 ∨
      Int.tmod (x.cols - w.cols) yStride ≠ 0) :
    Affine xs s
      = (.error "nn: the number of arguments of the affine transformation should be odd", s)
    ∧ ∃ msg, Conv2D w x xStride yStride cs = (.error msg, cs) := by
  constructor
  · rw [Affine, if_pos (by simpa using hpar)]
  · rw [Conv2D]
    by_cases hx0 : xStride = 0
    · exact ⟨_, by rw [if_pos hx0]⟩
    · rw [if_neg hx0]
      by_cases hr : Int.tmod (x.rows - w.rows) xStride ≠ 0
      · exact ⟨_, by rw [if_pos hr]⟩
      · rw [if_neg hr]
        have hc : Int.tmod (x.cols - w.cols) yStride ≠ 0 := by
          rcases hstride with h | h
          · exact absurd h hr
          · exact h
        by_cases hy0 : yStride = 0
        · exact ⟨_, by rw [if_pos hy0]⟩
        · rw [if_neg hy0]
          exact ⟨_, by rw [if_pos hc]⟩

/-- Witness for C3: the empty (even-length) affine argument list and a
5×5 input with a 2×2 kernel under stride 2 (difference 3 is not divisible
by 2). -/
theorem composition_shape_errors_abort_witness :
    Affine [] []
      = (.error "nn: the number of arguments of the affine transformation should be odd", [])
    ∧ ∃ msg, Conv2D ⟨2, 2⟩ ⟨5, 5⟩ 2 2 [] = (.error msg, []) :=
  composition_shape_errors_abort [] [] ⟨2, 2⟩ ⟨5, 5⟩ 2 2 [] rfl (Or.inl (by decide))

/- ## scalenorm Processor.Forward (src/unnamed/part_000, package scalenorm)

`Processor.Forward` composes, for each input vector `x`, the graph
`Prod(DivScalar(x, AddScalar(Sqrt(ReduceSum(Square(x))), eps)), gain)`.
We embed the built nodes as expression trees over input indices and give
them a denotational semantics over rational vectors; the numeric
square root of the backend is a parameter of the semantics. -/

inductive SNExpr where
  | input (i : ℕ)
  | gain
  | scalar (c : ℚ)
  | square (e : SNExpr)
  | reduceSum (e : SNExpr)
  | sqrtNode (e : SNExpr)
  | addScalar (a b : SNExpr)
  | divScalar (a b : SNExpr)
  | prod (a b : SNExpr)

/-- The `eps` constant of scalenorm `Forward`: `g.NewScalar(1e-10)`. -/
def epsSN : ℚ := 1 / 10000000000

/-- Function `Processor.Forward` (scalenorm, part_000 lines 61-69): for each of the
`n` inputs, the node
`Prod(DivScalar(x, AddScalar(Sqrt(ReduceSum(Square(x))), eps)), gain)`. -/
def scalenormForward (n : ℕ) : List SNExpr :=
  (List.range n).map fun i =>
    .prod (.divScalar (.input i)
        (.addScalar (.sqrtNode (.reduceSum (.square (.input i)))) (.scalar epsSN)))
      .gain

/-- Denotational semantics of the scalenorm node set over rational
vectors, with the backend square root as a parameter.  Scalar-argument
operators read element 0 of their scalar operand; `prod` is the
elementwise product. -/
def evalSN (sqrtFn : ℚ → ℚ) (xs : List (List ℚ)) (gain : List ℚ) : SNExpr → List ℚ
  | .input i => xs.getD i []
  | .gain => gain
  | .scalar c => [c]
  | .square e => (evalSN sqrtFn xs gain e).map fun v => v * v
  | .reduceSum e => [(evalSN sqrtFn xs gain e).sum]
  | .sqrtNode e => (evalSN sqrtFn xs gain e).map sqrtFn
  | .addScalar a b =>
      (evalSN sqrtFn xs gain a).map fun v => v + (evalSN sqrtFn xs gain b).getD 0 0
  | .divScalar a b =>
      (evalSN sqrtFn xs gain a).map fun v => v / (evalSN sqrtFn xs gain b).getD 0 0
  | .prod a b =>
      List.zipWith (fun u v => u * v) (evalSN sqrtFn xs gain a) (evalSN sqrtFn xs gain b)

/-- C4: for every input vector `x` (the `i`-th input) and gain vector `g`,
the scalenorm `Processor.Forward` builds the composition
`y = (x / (‖x‖ + ε)) ⊙ g` with `‖x‖ = sqrt(Σ x²)` and `ε = 1e-10 > 0`,
and the output shape equals the input shape. -/
theorem scalenorm_forward_formula (sqrtFn : ℚ → ℚ) (xs : List (List ℚ)) (gain : List ℚ)
    (i : ℕ) (hi : i < xs.length) (hlen : gain.length = (xs.getD i []).length) :
    evalSN sqrtFn xs gain ((scalenormForward xs.length).getD i .gain)
      = List.zipWith
          (fun xv gv => xv / (sqrtFn ((xs.getD i []).map fun v => v * v).sum + epsSN) * gv)
          (xs.getD i []) gain
    ∧ (evalSN sqrtFn xs gain ((scalenormForward xs.length).getD i .gain)).length
        = (xs.getD i []).length
    ∧ 0 < epsSN := by
  have hnode : (scalenormForward xs.length).getD i .gain
      = .prod (.divScalar (.input i)
          (.addScalar (.sqrtNode (.reduceSum (.square (.input i)))) (.scalar epsSN)))
        .gain := by
    have hlt : i < (scalenormForward xs.length).length := by
      simpa [scalenormForward] using hi
    rw [List.getD_eq_getElem _ _ hlt]
    simp [scalenormForward]
  rw [hnode]
  have heval : evalSN sqrtFn xs gain
      (.prod (.divScalar (.input i)
          (.addScalar (.sqrtNode (.reduceSum (.square (.input i)))) (.scalar epsSN)))
        .gain)
      = List.zipWith (fun u v => u * v)
          ((xs.getD i []).map fun xv =>
            xv / (sqrtFn ((xs.getD i []).map fun v => v * v).sum + epsSN))
          gain := by
    simp [evalSN]
  refine ⟨?_, ?_, by norm_num [epsSN]⟩
  · rw [heval, List.zipWith_map_left]
  · rw [heval, List.length_zipWith, List.length_map, hlen, min_self]

/-- Witness for C4: input `[3, 4]` with gain `[1, 2]` under the identity
square root. -/
theorem scalenorm_forward_formula_witness :
    evalSN id [[3, 4]] [1, 2] ((scalenormForward ([[3, 4]] : List (List ℚ)).length).getD 0 .gain)
      = List.zipWith
          (fun xv gv =>
            xv / (id ((([[3, 4]] : List (List ℚ)).getD 0 []).map fun v => v * v).sum + epsSN) * gv)
          (([[3, 4]] : List (List ℚ)).getD 0 []) [1, 2]
    ∧ (evalSN id [[3, 4]] [1, 2]
          ((scalenormForward ([[3, 4]] : List (List ℚ)).length).getD 0 .gain)).length
        = (([[3, 4]] : List (List ℚ)).getD 0 []).length
    ∧ 0 < epsSN :=
  scalenorm_forward_formula id [[3, 4]] [1, 2] 0 (by decide) (by decide)

/- ## The ag Graph engine (modelled from the spec)

The `ag` package itself is not part of the source excerpt — only its
callers and a unit test are — so the engine is modelled from the
specification: an arena of nodes in creation order, each node either a
leaf or an operator application whose operand indices point strictly
earlier, a per-node cached optional Value, and additive gradient
accumulation in reverse creation order. -/

/-- Modelled from the spec: a node of the computation graph — a leaf
(input/parameter with its `requiresGrad` flag), a binary addition, or a
unary operator carrying its forward function and its local gradient rule
`df (outputGradient) (operandValue)`. -/
inductive AgOp where
  | leaf (v : ℚ) (requiresGrad : Bool)
  | add (a b : ℕ)
  | unary (f : ℚ → ℚ) (df : ℚ → ℚ → ℚ) (a : ℕ)

/-- The zero value of a node slot (used for out-of-range reads). -/
def defaultOp : AgOp := .leaf 0 false

/-- Modelled from the spec: the Graph owns the node list (creation order),
the cached Values and the accumulated Gradients. -/
structure AgGraph where
  ops : List AgOp
  values : List (Option ℚ)
  grads : List ℚ

/-- Modelled from the spec: the value of an operator node as a function of the
already-computed earlier values. -/
def opEval (acc : List ℚ) : AgOp → ℚ
  | .leaf v _ => v
  | .add a b => acc.getD a 0 + acc.getD b 0
  | .unary f _ a => f (acc.getD a 0)

/-- Modelled from the spec: the Forward sweep in creation order.  A node
whose Value is already cached keeps it; a node with an absent Value is
computed from the (already swept) prefix. -/
def forwardAux : List AgOp → List (Option ℚ) → List ℚ → List ℚ
  | [], _, acc => acc
  | op :: ops, c :: cache, acc => forwardAux ops cache (acc ++ [c.getD (opEval acc op)])
  | op :: ops, [], acc => forwardAux ops [] (acc ++ [opEval acc op])

/-- Modelled from the spec: `Graph.Forward()` resolves every
not-yet-computed Value in creation order and caches the results. -/
def forward (g : AgGraph) : AgGraph :=
  ⟨g.ops, (forwardAux g.ops g.values []).map some, g.grads⟩

/-- The number of nodes whose Value is absent, i.e. the number of values
the next `Forward()` call would have to compute. -/
def pendingCount (g : AgGraph) : ℕ :=
  (List.range g.ops.length).countP fun i => (g.values.getD i none).isNone

theorem forwardAux_length :
    ∀ (ops : List AgOp) (cache : List (Option ℚ)) (acc : List ℚ),
      (forwardAux ops cache acc).length = acc.length + ops.length := by
  intro ops
  induction ops with
  | nil => intro cache acc; simp [forwardAux]
  | cons op ops ih =>
      intro cache acc
      cases cache with
      | nil => rw [forwardAux, ih]; simp; omega
      | cons c cache => rw [forwardAux, ih]; simp; omega

theorem forwardAux_all_cached :
    ∀ (ops : List AgOp) (vs : List ℚ) (acc : List ℚ), vs.length = ops.length →
      forwardAux ops (vs.map some) acc = acc ++ vs := by
  intro ops
  induction ops with
  | nil =>
      intro vs acc hlen
      have hv : vs = [] := by simpa using hlen
      subst hv
      simp [forwardAux]
  | cons op ops ih =>
      intro vs acc hlen
      cases vs with
      | nil => simp at hlen
      | cons v vs =>
          rw [List.map_cons, forwardAux, ih vs _ (by simpa using hlen)]
          simp

/-- C5: re-invoking `Forward` is a no-op for cached values — calling
Forward twice without mutating the graph produces identical Values for
every node, and after a Forward pass no node is left to compute, so each
value of a node is computed at most once per graph lifecycle. -/
theorem forward_idempotent (g : AgGraph) :
    forward (forward g) = forward g ∧ pendingCount (forward g) = 0 := by
  constructor
  · have h : forwardAux g.ops ((forwardAux g.ops g.values []).map some) []
        = forwardAux g.ops g.values [] := by
      rw [forwardAux_all_cached g.ops _ [] (by rw [forwardAux_length]; simp)]
      simp
    simp [forward, h]
  · simp only [pendingCount, forward]
    rw [List.countP_eq_zero]
    intro i hi
    rw [List.mem_range] at hi
    have hlen : i < ((forwardAux g.ops g.values []).map some).length := by
      rw [List.length_map, forwardAux_length]; simpa using hi
    rw [List.getD_eq_getElem _ none hlen]
    simp

/-- Modelled from the spec: the empty Graph. -/
def agEmptyGraph : AgGraph := ⟨[], [], []⟩

/-- Modelled from the spec: `Clear()` releases every Value and Gradient
and the node list itself, returning the Graph to an empty state. -/
def clearGraph (_ : AgGraph) : AgGraph := agEmptyGraph

/-- C7: after `Clear()` the Graph holds no nodes, no Values and no
Gradients, and any subsequent composition on the cleared Graph behaves
exactly as on a newly created Graph. -/
theorem clear_resets_graph (g : AgGraph) :
    (clearGraph g).ops = [] ∧ (clearGraph g).values = [] ∧ (clearGraph g).grads = []
    ∧ ∀ compose : AgGraph → AgGraph × ℚ, compose (clearGraph g) = compose agEmptyGraph :=
  ⟨rfl, rfl, rfl, fun _ => rfl⟩

/- ## Backward propagation (modelled from the spec, §4.4) -/

/-- Modelled from the spec: whether gradient may be accumulated into node
`j` — leaves carry their `requiresGrad` flag, operator nodes propagate. -/
def nodeRequiresGrad (ops : List AgOp) (j : ℕ) : Bool :=
  match ops.getD j defaultOp with
  | .leaf _ r => r
  | _ => true

/-- Modelled from the spec: the Backward of an operator: given the accumulated output gradient of the node and the operand values, one gradient
contribution `(operandIndex, gradient)` per differentiable operand. -/
def opBackward (vals : List ℚ) (gout : ℚ) : AgOp → List (ℕ × ℚ)
  | .leaf _ _ => []
  | .add a b => [(a, gout), (b, gout)]
  | .unary _ df a => [(a, df gout (vals.getD a 0))]

/-- Modelled from the spec: each returned operand gradient is **added**
into the gradient slot of that operand, skipping operands whose `requiresGrad`
is false. -/
def applyContribs (ops : List AgOp) (gs : List ℚ) : List (ℕ × ℚ) → List ℚ
  | [] => gs
  | (j, v) :: rest =>
      applyContribs ops
        (if nodeRequiresGrad ops j then gs.set j (gs.getD j 0 + v) else gs) rest

/-- Modelled from the spec: the Backward sweep visits the nodes in
reverse creation order, each node distributing its accumulated gradient
to its operands. -/
def backwardSweep (ops : List AgOp) (vals gs : List ℚ) : List ℚ :=
  (List.range ops.length).reverse.foldl
    (fun gs i => applyContribs ops gs (opBackward vals (gs.getD i 0) (ops.getD i defaultOp)))
    gs

/-- Modelled from the spec: `Backward(target, seed)` — gradients start at
zero except for the seeded target, then the reverse sweep runs. -/
def backward (g : AgGraph) (target : ℕ) (seed : ℚ) : List ℚ :=
  backwardSweep g.ops (forwardAux g.ops g.values [])
    ((List.replicate g.ops.length 0).set target seed)

/-- The fan-out graph of the claim: a leaf `x` consumed by two independent
unary operators `f` and `g` whose outputs are summed,
`L = f(x) + g(x)`. -/
def fanoutGraph (f : ℚ → ℚ) (df : ℚ → ℚ → ℚ) (gf : ℚ → ℚ) (dg : ℚ → ℚ → ℚ)
    (x : ℚ) : AgGraph :=
  ⟨[.leaf x true, .unary f df 0, .unary gf dg 0, .add 1 2], [], []⟩

/-- C2: after `Backward` on `L = f(x) + g(x)` with seed 1, the gradient of
the shared node `x` equals the sum of the two consumer-wise individual
backward contributions `df 1 x` and `dg 1 x` (additive fan-out
accumulation); the last two conjuncts identify `df 1 x` and `dg 1 x` as
exactly the individual contributions the two operator nodes hand to `x`. -/
theorem backward_fanout_accumulates (f : ℚ → ℚ) (df : ℚ → ℚ → ℚ)
    (gf : ℚ → ℚ) (dg : ℚ → ℚ → ℚ) (x : ℚ) :
    (backward (fanoutGraph f df gf dg x) 3 1).getD 0 0 = df 1 x + dg 1 x
    ∧ opBackward (forwardAux (fanoutGraph f df gf dg x).ops [] []) 1 (.unary f df 0)
        = [(0, df 1 x)]
    ∧ opBackward (forwardAux (fanoutGraph f df gf dg x).ops [] []) 1 (.unary gf dg 0)
        = [(0, dg 1 x)] := by
  refine ⟨?_, ?_, ?_⟩
  · simp [backward, fanoutGraph, backwardSweep, forwardAux, opEval, applyContribs,
      opBackward, nodeRequiresGrad, defaultOp, List.range_succ]
    ring
  · simp [opBackward, forwardAux, fanoutGraph, opEval]
  · simp [opBackward, forwardAux, fanoutGraph, opEval]

/- ## Concurrent Forward scheduling (modelled from the spec, §4.3 and §5)

Concurrent mode dispatches ready nodes to workers; a node is dispatched
only once the Value of every operand is resolved.  An execution of a Forward
pass is abstracted as the order in which node computations commit; a
valid schedule computes each node after its operands.  Determinism of the
composition then reduces to: every valid schedule yields the same value
assignment, the canonical denotation of the graph. -/

theorem getD_set_self {α : Type} :
    ∀ (l : List α) (i : ℕ) (v d : α), i < l.length → (l.set i v).getD i d = v := by
  intro l
  induction l with
  | nil => intro i v d h; simp at h
  | cons a t ih =>
      intro i v d h
      cases i with
      | zero => rfl
      | succ i =>
          rw [List.set_cons_succ, List.getD_cons_succ]
          exact ih i v d (by simpa using h)

theorem getD_set_neq {α : Type} :
    ∀ (l : List α) (i j : ℕ) (v d : α), i ≠ j → (l.set i v).getD j d = l.getD j d := by
  intro l
  induction l with
  | nil => intro i j v d h; simp [List.set]
  | cons a t ih =>
      intro i j v d h
      cases i with
      | zero =>
          cases j with
          | zero => exact absurd rfl h
          | succ j => rw [List.set_cons_zero, List.getD_cons_succ, List.getD_cons_succ]
      | succ i =>
          cases j with
          | zero => rw [List.set_cons_succ, List.getD_cons_zero, List.getD_cons_zero]
          | succ j =>
              rw [List.set_cons_succ, List.getD_cons_succ, List.getD_cons_succ]
              exact ih i j v d (by omega)

/-- The operand indices a node depends on. -/
def operandsOf : AgOp → List ℕ
  | .leaf _ _ => []
  | .add a b => [a, b]
  | .unary _ _ a => [a]

/-- Graph well-formedness: the operands of every node were created strictly
earlier (the topological creation-order invariant of the spec). -/
def wfOps (ops : List AgOp) : Bool :=
  (List.range ops.length).all fun i =>
    (operandsOf (ops.getD i defaultOp)).all fun a => decide (a < i)

/-- The canonical value of node `i`, by recursion over the creation
order (the guards hold in a well-formed graph). -/
def denote (ops : List AgOp) (i : ℕ) : ℚ :=
  match ops.getD i defaultOp with
  | .leaf v _ => v
  | .add a b =>
      (if _h : a < i then denote ops a else 0) + (if _h : b < i then denote ops b else 0)
  | .unary f _ a => if _h : a < i then f (denote ops a) else 0
termination_by i

/-- The value of a node as read from a not fully computed state (unresolved
operands read as 0; a valid schedule never reads one). -/
def opEvalAt (s : List (Option ℚ)) : AgOp → ℚ
  | .leaf v _ => v
  | .add a b => (s.getD a none).getD 0 + (s.getD b none).getD 0
  | .unary f _ a => f ((s.getD a none).getD 0)

/-- One worker commit: the value of node `i` is computed from the current
state and stored. -/
def execStep (ops : List AgOp) (s : List (Option ℚ)) (i : ℕ) : List (Option ℚ) :=
  s.set i (some (opEvalAt s (ops.getD i defaultOp)))

/-- Running a whole schedule from the all-unresolved state. -/
def execSched (ops : List AgOp) (order : List ℕ) : List (Option ℚ) :=
  order.foldl (execStep ops) (List.replicate ops.length none)

/-- A valid schedule continuation: each dispatched node is in range, not
yet computed, and all its operands are already computed. -/
def validFrom (ops : List AgOp) : List ℕ → List ℕ → Bool
  | _, [] => true
  | done, i :: rest =>
      decide (i < ops.length) && decide (i ∉ done)
        && (operandsOf (ops.getD i defaultOp)).all (fun a => decide (a ∈ done))
        && validFrom ops (i :: done) rest

theorem wfOps_operands {ops : List AgOp} (hwf : wfOps ops = true) {i : ℕ}
    (hi : i < ops.length) : ∀ a ∈ operandsOf (ops.getD i defaultOp), a < i := by
  intro a ha
  simp only [wfOps, List.all_eq_true, List.mem_range, decide_eq_true_eq] at hwf
  exact hwf i hi a ha

theorem execSched_go (ops : List AgOp) (hwf : wfOps ops = true) :
    ∀ (order done : List ℕ) (s : List (Option ℚ)),
      s.length = ops.length →
      (∀ j ∈ done, j < ops.length) →
      (∀ j, j < ops.length →
        s.getD j none = if j ∈ done then some (denote ops j) else none) →
      validFrom ops done order = true →
      ∀ j, j < ops.length →
        (order.foldl (execStep ops) s).getD j none
          = if j ∈ done ∨ j ∈ order then some (denote ops j) else none := by
  intro order
  induction order with
  | nil =>
      intro done s hs hdone hinv hvalid j hj
      simp only [List.foldl_nil, List.not_mem_nil, or_false]
      exact hinv j hj
  | cons i rest ih =>
      intro done s hs hdone hinv hvalid j hj
      simp only [validFrom, Bool.and_eq_true, decide_eq_true_eq,
        List.all_eq_true] at hvalid
      obtain ⟨⟨⟨hi, hnd⟩, hoper⟩, hrest⟩ := hvalid
      have hvaleq : opEvalAt s (ops.getD i defaultOp) = denote ops i := by
        have hwfi := wfOps_operands hwf hi
        rw [denote]
        cases hop : ops.getD i defaultOp with
        | leaf v r => simp [opEvalAt]
        | add a b =>
            rw [hop] at hwfi hoper
            have halt : a < i := hwfi a (by simp [operandsOf])
            have hblt : b < i := hwfi b (by simp [operandsOf])
            have hain : a ∈ done := hoper a (by simp [operandsOf])
            have hbin : b ∈ done := hoper b (by simp [operandsOf])
            have hsa : s.getD a none = some (denote ops a) := by
              rw [hinv a (hdone a hain), if_pos hain]
            have hsb : s.getD b none = some (denote ops b) := by
              rw [hinv b (hdone b hbin), if_pos hbin]
            simp only [opEvalAt]
            rw [hsa, hsb]
            simp [halt, hblt]
        | unary f df a =>
            rw [hop] at hwfi hoper
            have halt : a < i := hwfi a (by simp [operandsOf])
            have hain : a ∈ done := hoper a (by simp [operandsOf])
            have hsa : s.getD a none = some (denote ops a) := by
              rw [hinv a (hdone a hain), if_pos hain]
            simp only [opEvalAt]
            rw [hsa]
            simp [halt]
      have hlen' : (execStep ops s i).length = ops.length := by
        rw [execStep, List.length_set, hs]
      have hdone' : ∀ j ∈ i :: done, j < ops.length := by
        intro j hji
        rcases List.mem_cons.mp hji with h | h
        · exact h ▸ hi
        · exact hdone j h
      have hinv' : ∀ j, j < ops.length →
          (execStep ops s i).getD j none
            = if j ∈ i :: done then some (denote ops j) else none := by
        intro j hjn
        by_cases hji : j = i
        · subst hji
          rw [execStep, getD_set_self _ _ _ _ (by rw [hs]; exact hjn), hvaleq]
          rw [if_pos (List.mem_cons_self j done)]
        · rw [execStep, getD_set_neq _ _ _ _ _ (fun he => hji he.symm)]
          rw [hinv j hjn]
          by_cases hjd : j ∈ done
          · rw [if_pos hjd, if_pos (List.mem_cons_of_mem i hjd)]
          · rw [if_neg hjd, if_neg (by
              intro hmem
              rcases List.mem_cons.mp hmem with h | h
              · exact hji h
              · exact hjd h)]
      rw [List.foldl_cons]
      rw [ih (i :: done) (execStep ops s i) hlen' hdone' hinv' hrest j hj]
      have hiff : (j ∈ i :: done ∨ j ∈ rest) ↔ (j ∈ done ∨ j ∈ i :: rest) := by
        simp only [List.mem_cons]
        tauto
      exact if_congr hiff rfl rfl

theorem execFoldl_length (ops : List AgOp) :
    ∀ (order : List ℕ) (s : List (Option ℚ)),
      (order.foldl (execStep ops) s).length = s.length := by
  intro order
  induction order with
  | nil => intro s; rfl
  | cons i rest ih =>
      intro s
      rw [List.foldl_cons, ih, execStep, List.length_set]

/-- C8: running the same composition code on fresh Graphs is
deterministic — any two valid (concurrency-induced) schedules of the same
node arena produce identical value assignments, equal to the canonical
denotation of every node. -/
theorem forward_schedule_independent (ops : List AgOp) (o1 o2 : List ℕ)
    (hwf : wfOps ops = true)
    (h1 : validFrom ops [] o1 = true) (h2 : validFrom ops [] o2 = true)
    (hc1 : ∀ j, j < ops.length → j ∈ o1) (hc2 : ∀ j, j < ops.length → j ∈ o2) :
    execSched ops o1 = execSched ops o2
    ∧ ∀ j, j < ops.length →
        (execSched ops o1).getD j none = some (denote ops j) := by
  have base_inv : ∀ j, j < ops.length →
      (List.replicate ops.length (none : Option ℚ)).getD j none
        = if j ∈ ([] : List ℕ) then some (denote ops j) else none := by
    intro j hj
    rw [List.getD_eq_getElem _ _ (by simpa using hj)]
    simp
  have k1 := execSched_go ops hwf o1 [] _ (by simp) (by simp) base_inv h1
  have k2 := execSched_go ops hwf o2 [] _ (by simp) (by simp) base_inv h2
  have hpt1 : ∀ j, j < ops.length →
      (execSched ops o1).getD j none = some (denote ops j) := by
    intro j hj
    show (o1.foldl (execStep ops) (List.replicate ops.length none)).getD j none = _
    rw [k1 j hj, if_pos (Or.inr (hc1 j hj))]
  have hpt2 : ∀ j, j < ops.length →
      (execSched ops o2).getD j none = some (denote ops j) := by
    intro j hj
    show (o2.foldl (execStep ops) (List.replicate ops.length none)).getD j none = _
    rw [k2 j hj, if_pos (Or.inr (hc2 j hj))]
  have hlen1 : (execSched ops o1).length = ops.length := by
    rw [execSched, execFoldl_length, List.length_replicate]
  have hlen2 : (execSched ops o2).length = ops.length := by
    rw [execSched, execFoldl_length, List.length_replicate]
  refine ⟨?_, hpt1⟩
  apply List.ext_getElem (by rw [hlen1, hlen2])
  intro j hj1 hj2
  have hj : j < ops.length := by rw [hlen1] at hj1; exact hj1
  have e1 := hpt1 j hj
  have e2 := hpt2 j hj
  rw [List.getD_eq_getElem _ _ hj1] at e1
  rw [List.getD_eq_getElem _ _ hj2] at e2
  rw [e1, e2]

/-- Witness for C8: the two-leaf-plus-add arena under the schedules
`[0,1,2]` and `[1,0,2]`. -/
theorem forward_schedule_independent_witness :
    execSched [AgOp.leaf 2 true, AgOp.leaf 3 true, AgOp.add 0 1] [0, 1, 2]
      = execSched [AgOp.leaf 2 true, AgOp.leaf 3 true, AgOp.add 0 1] [1, 0, 2]
    ∧ ∀ j, j < ([AgOp.leaf 2 true, AgOp.leaf 3 true, AgOp.add 0 1] : List AgOp).length →
        (execSched [AgOp.leaf 2 true, AgOp.leaf 3 true, AgOp.add 0 1] [0, 1, 2]).getD j none
          = some (denote [AgOp.leaf 2 true, AgOp.leaf 3 true, AgOp.add 0 1] j) :=
  forward_schedule_independent _ [0, 1, 2] [1, 0, 2]
    (by decide) (by decide) (by decide) (by decide) (by decide)

/- ## GetCopiedValue and Clear (modelled from the spec, §4.5)

`GetCopiedValue` must return a snapshot disconnected from the internal
storage of the Graph.  We model storage explicitly: a heap of addressed
cells, of which the Graph owns a set (one cell per node value);
`GetCopiedValue` copies the value of a node into a freshly allocated cell the
Graph does not own, and `Clear` releases exactly the Graph-owned
cells. -/

structure SnapHeap where
  data : ℕ → Option ℚ
  next : ℕ

structure GraphStore where
  cells : List ℕ

/-- Modelled from the spec: `g.GetCopiedValue(n)` allocates a fresh cell
outside the Graph storage and copies the value of node `n` into it,
returning the address of the snapshot. -/
def getCopiedValue (g : GraphStore) (h : SnapHeap) (n : ℕ) : ℕ × SnapHeap :=
  (h.next,
   { data := fun a => if a = h.next then h.data (g.cells.getD n 0) else h.data a,
     next := h.next + 1 })

/-- Modelled from the spec: `g.Clear()` releases every Graph-owned value
cell. -/
def clearStore (g : GraphStore) (h : SnapHeap) : SnapHeap :=
  { data := fun a => if a ∈ g.cells then none else h.data a, next := h.next }

/-- C6: the snapshot returned by `GetCopiedValue` is disconnected from the
Graph storage: after `Clear()` the snapshot cell still reads exactly
the node value it captured, so the caller may retain it past `Clear`.
(The hypothesis is the allocation invariant: every Graph-owned cell was
allocated below the high-water mark of the heap.) -/
theorem copied_value_survives_clear (g : GraphStore) (h : SnapHeap) (n : ℕ)
    (hinv : ∀ c ∈ g.cells, c < h.next) :
    (clearStore g (getCopiedValue g h n).2).data (getCopiedValue g h n).1
      = (getCopiedValue g h n).2.data (getCopiedValue g h n).1
    ∧ (getCopiedValue g h n).2.data (getCopiedValue g h n).1
      = h.data (g.cells.getD n 0) := by
  have hnot : h.next ∉ g.cells := fun hmem => absurd (hinv _ hmem) (by omega)
  constructor
  · simp [clearStore, getCopiedValue, hnot]
  · simp [getCopiedValue]

/-- Witness for C6: a two-cell graph store over a concrete heap. -/
theorem copied_value_survives_clear_witness :
    (clearStore ⟨[0, 1]⟩
        (getCopiedValue ⟨[0, 1]⟩ ⟨fun a => if a = 0 then some 5 else if a = 1 then some 7 else none, 2⟩ 0).2).data
      (getCopiedValue ⟨[0, 1]⟩ ⟨fun a => if a = 0 then some 5 else if a = 1 then some 7 else none, 2⟩ 0).1
      = (getCopiedValue ⟨[0, 1]⟩ ⟨fun a => if a = 0 then some 5 else if a = 1 then some 7 else none, 2⟩ 0).2.data
          (getCopiedValue ⟨[0, 1]⟩ ⟨fun a => if a = 0 then some 5 else if a = 1 then some 7 else none, 2⟩ 0).1
    ∧ (getCopiedValue ⟨[0, 1]⟩ ⟨fun a => if a = 0 then some 5 else if a = 1 then some 7 else none, 2⟩ 0).2.data
        (getCopiedValue ⟨[0, 1]⟩ ⟨fun a => if a = 0 then some 5 else if a = 1 then some 7 else none, 2⟩ 0).1
      = (⟨fun a => if a = 0 then some 5 else if a = 1 then some 7 else none, 2⟩ : SnapHeap).data
          (([0, 1] : List ℕ).getD 0 0) :=
  copied_value_survives_clear ⟨[0, 1]⟩
    ⟨fun a => if a = 0 then some 5 else if a = 1 then some 7 else none, 2⟩ 0 (by decide)

/- ## Scaled dot-product attention (transforms.go lines 75-110)

Both variants create `keys = Stack(ks)`, `values = T(Stack(vs))` and
`divTerm = NewScalar(scaledFactor)` once, then fill `context[i]` and
`probs[i]` for every `i` independently of every other index.  The nodes
are embedded as expression trees; `probs[i] = attProbs.Value()` is read
through an arbitrary evaluation function `val` (node values are a
deterministic function of the node).  The sequential variant processes
indices in range order; the goroutine interleaving of the concurrent variant
is abstracted as the order in which the per-index slot writes commit. -/

inductive AttExpr where
  | q (i : ℕ)
  | k (i : ℕ)
  | v (i : ℕ)
  | stack (l : List AttExpr)
  | transpose (e : AttExpr)
  | scalarNew (c : ℚ)
  | mul (a b : AttExpr)
  | divScalar (a b : AttExpr)
  | softmax (e : AttExpr)

/-- The per-index body shared by both variants (transforms.go lines 81-86
and 100-106): `attProbs = Softmax(DivScalar(Mul(keys, q), divTerm))`,
`context[i] = Mul(values, attProbs)`, `probs[i] = attProbs.Value()`. -/
def attSlot (M : Type) (val : AttExpr → M) (keys values divTerm : AttExpr)
    (qs : List AttExpr) (i : ℕ) : AttExpr × M :=
  let q := qs.getD i (.scalarNew 0)
  let attProbs := AttExpr.softmax (.divScalar (.mul keys q) divTerm)
  (.mul values attProbs, val attProbs)

/-- Filling the two result arrays in a given commit order, starting from
the zero-valued Go `make` slices (`none` = nil slot). -/
def sdpaRun (M : Type) (val : AttExpr → M) (qs ks vs : List AttExpr)
    (scaledFactor : ℚ) (order : List ℕ) :
    List (Option AttExpr) × List (Option M) :=
  let keys := AttExpr.stack ks
  let values := AttExpr.transpose (.stack vs)
  let divTerm := AttExpr.scalarNew scaledFactor
  order.foldl (fun acc i =>
      (acc.1.set i (some (attSlot M val keys values divTerm qs i).1),
       acc.2.set i (some (attSlot M val keys values divTerm qs i).2)))
    (List.replicate qs.length none, List.replicate qs.length none)

/-- Function `ScaledDotProductAttention`: the sequential loop visits the indices in
range order. -/
def ScaledDotProductAttention (M : Type) (val : AttExpr → M)
    (qs ks vs : List AttExpr) (scaledFactor : ℚ) :
    List (Option AttExpr) × List (Option M) :=
  sdpaRun M val qs ks vs scaledFactor (List.range qs.length)

/-- Function `ScaledDotProductAttentionConcurrent`: same per-index work, slot
writes committing in an arbitrary interleaving `order`. -/
def ScaledDotProductAttentionConcurrent (M : Type) (val : AttExpr → M)
    (qs ks vs : List AttExpr) (scaledFactor : ℚ) (order : List ℕ) :
    List (Option AttExpr) × List (Option M) :=
  sdpaRun M val qs ks vs scaledFactor order

theorem foldl_set_getD {α : Type} (f : ℕ → α) :
    ∀ (order : List ℕ) (l : List (Option α)) (j : ℕ), j < l.length →
      (order.foldl (fun acc i => acc.set i (some (f i))) l).getD j none
        = if j ∈ order then some (f j) else l.getD j none := by
  intro order
  induction order with
  | nil => intro l j hj; simp
  | cons i rest ih =>
      intro l j hj
      rw [List.foldl_cons, ih (l.set i (some (f i))) j (by rw [List.length_set]; exact hj)]
      by_cases hjr : j ∈ rest
      · rw [if_pos hjr, if_pos (List.mem_cons_of_mem i hjr)]
      · rw [if_neg hjr]
        by_cases hji : j = i
        · subst hji
          rw [getD_set_self _ _ _ _ hj, if_pos (List.mem_cons_self j rest)]
        · rw [getD_set_neq _ _ _ _ _ (fun he => hji he.symm),
            if_neg (by
              intro hmem
              rcases List.mem_cons.mp hmem with h | h
              · exact hji h
              · exact hjr h)]

theorem foldl_set_length {α : Type} (f : ℕ → α) :
    ∀ (order : List ℕ) (l : List (Option α)),
      (order.foldl (fun acc i => acc.set i (some (f i))) l).length = l.length := by
  intro order
  induction order with
  | nil => intro l; rfl
  | cons i rest ih => intro l; rw [List.foldl_cons, ih, List.length_set]

theorem foldl_pair_set (A B : Type) (fa : ℕ → A) (fb : ℕ → B) :
    ∀ (order : List ℕ) (la : List (Option A)) (lb : List (Option B)),
      order.foldl (fun acc i => (acc.1.set i (some (fa i)), acc.2.set i (some (fb i)))) (la, lb)
        = (order.foldl (fun acc i => acc.set i (some (fa i))) la,
           order.foldl (fun acc i => acc.set i (some (fb i))) lb) := by
  intro order
  induction order with
  | nil => intro la lb; rfl
  | cons i rest ih => intro la lb; rw [List.foldl_cons, ih, List.foldl_cons, List.foldl_cons]

theorem set_run_eq {α : Type} (f : ℕ → α) (n : ℕ) (o1 o2 : List ℕ)
    (hmem : ∀ j, j < n → (j ∈ o1 ↔ j ∈ o2)) :
    o1.foldl (fun acc i => acc.set i (some (f i))) (List.replicate n none)
      = o2.foldl (fun acc i => acc.set i (some (f i))) (List.replicate n none) := by
  apply List.ext_getElem
  · rw [foldl_set_length, foldl_set_length]
  · intro j hj1 hj2
    have hj : j < n := by rwa [foldl_set_length, List.length_replicate] at hj1
    have e1 := foldl_set_getD f o1 (List.replicate n none) j
      (by rw [List.length_replicate]; exact hj)
    have e2 := foldl_set_getD f o2 (List.replicate n none) j
      (by rw [List.length_replicate]; exact hj)
    rw [List.getD_eq_getElem _ _ hj1] at e1
    rw [List.getD_eq_getElem _ _ hj2] at e2
    rw [e1, e2, if_congr (hmem j hj) rfl rfl]

/-- C10: for all query, key and value node sequences and every scaled
factor, the concurrent attention variant returns the same context nodes
and the same probability values as the sequential one, whatever
interleaving the goroutine slot writes commit in (provided every index
commits, which the WaitGroup join guarantees). -/
theorem attention_concurrent_equiv_sequential (M : Type) (val : AttExpr → M)
    (qs ks vs : List AttExpr) (scaledFactor : ℚ) (order : List ℕ)
    (hc : ∀ i, i < qs.length → i ∈ order) :
    ScaledDotProductAttentionConcurrent M val qs ks vs scaledFactor order
      = ScaledDotProductAttention M val qs ks vs scaledFactor := by
  show sdpaRun M val qs ks vs scaledFactor order
      = sdpaRun M val qs ks vs scaledFactor (List.range qs.length)
  simp only [sdpaRun]
  rw [foldl_pair_set, foldl_pair_set]
  have hmem : ∀ j, j < qs.length → (j ∈ order ↔ j ∈ List.range qs.length) := by
    intro j hj
    constructor
    · intro _; exact List.mem_range.mpr hj
    · intro _; exact hc j hj
  rw [set_run_eq _ qs.length order (List.range qs.length) hmem,
      set_run_eq _ qs.length order (List.range qs.length) hmem]

/-- Witness for C10: two queries written in the commit order `[1, 0]`. -/
theorem attention_concurrent_equiv_sequential_witness :
    ScaledDotProductAttentionConcurrent ℕ (fun _ => 0)
        [AttExpr.q 0, AttExpr.q 1] [AttExpr.k 0] [AttExpr.v 0] 1 [1, 0]
      = ScaledDotProductAttention ℕ (fun _ => 0)
          [AttExpr.q 0, AttExpr.q 1] [AttExpr.k 0] [AttExpr.v 0] 1 :=
  attention_concurrent_equiv_sequential ℕ (fun _ => 0)
    [AttExpr.q 0, AttExpr.q 1] [AttExpr.k 0] [AttExpr.v 0] 1 [1, 0] (by decide)
